import Mathlib

/-!
Verification of an RRT* (rapidly-exploring random tree, star variant)
path planner.  The planner keeps a vector of nodes; each node stores a
2-D point, an optional parent index and a cost.  We embed the data model
and every tree operation (`new`, `find_nearest`, `steer`, `add_node`,
`near`, `rewire`, `update_best_path`, `trace_path`, and the main loop
body) and prove the stated invariants and functional properties.
Coordinates and costs are modelled as real numbers; the initial
`best_cost` of infinity is modelled as the top element of `EReal`.
-/

namespace RRT

/-- A two-dimensional point. -/
@[ext]
structure Point where
  x : ℝ
  y : ℝ

/-- Euclidean distance between two points. -/
noncomputable def Point.distance (p q : Point) : ℝ :=
  Real.sqrt ((p.x - q.x) ^ 2 + (p.y - q.y) ^ 2)

theorem Point.distance_nonneg (p q : Point) : 0 ≤ p.distance q :=
  Real.sqrt_nonneg _

theorem Point.distance_comm (p q : Point) : p.distance q = q.distance p := by
  unfold Point.distance
  ring_nf

/-- Evaluate a distance whose square root is exact. -/
theorem Point.distance_eval (x1 y1 x2 y2 d : ℝ) (hd : 0 ≤ d)
    (h : (x1 - x2) ^ 2 + (y1 - y2) ^ 2 = d * d) :
    Point.distance ⟨x1, y1⟩ ⟨x2, y2⟩ = d := by
  unfold Point.distance
  simp only
  rw [h, Real.sqrt_mul_self hd]

/-- A tree node: a point, an optional parent index and a cost. -/
structure Node where
  point : Point
  parent : Option ℕ
  cost : ℝ

/-- The planner state. -/
structure RRTStar where
  nodes : List Node
  goal : Point
  step_size : ℝ
  goal_threshold : ℝ
  search_radius : ℝ
  best_cost : EReal

/-- Default node used to totalise list indexing (the Rust code panics on
an out-of-range index; all verified uses stay in range). -/
noncomputable def defaultNode : Node := ⟨⟨0, 0⟩, none, 0⟩

/-- The node at index `i` (out-of-range indices yield `defaultNode`). -/
noncomputable def nthNode (t : RRTStar) (i : ℕ) : Node :=
  t.nodes.getD i defaultNode

/-- `RRTStar::new`: seeds the tree with the start node as root (no
parent, cost `0`) and an infinite best cost. -/
noncomputable def RRTStar.new (start goal : Point)
    (step_size goal_threshold search_radius : ℝ) : RRTStar :=
  { nodes := [⟨start, none, 0⟩]
    goal := goal
    step_size := step_size
    goal_threshold := goal_threshold
    search_radius := search_radius
    best_cost := ⊤ }

/-- `RRTStar::find_nearest`: index of the node nearest to `point`
(`min_by` keeps the earliest index on ties). -/
noncomputable def find_nearest (t : RRTStar) (point : Point) : ℕ :=
  (List.range t.nodes.length).foldl
    (fun best j =>
      if (nthNode t j).point.distance point <
          (nthNode t best).point.distance point then j else best) 0

/-- `RRTStar::steer`: move exactly `step_size` from `p` in the direction
of `q`; `atan2 dy dx` is the argument of the complex number `dx + i dy`. -/
noncomputable def steer (t : RRTStar) (p q : Point) : Point :=
  let angle := Complex.arg ⟨q.x - p.x, q.y - p.y⟩
  ⟨p.x + t.step_size * Real.cos angle, p.y + t.step_size * Real.sin angle⟩

/-- `RRTStar::is_collision_free`: the reference code always returns true. -/
def is_collision_free (_t : RRTStar) (_p : Point) : Bool := true

/-- `RRTStar::add_node`: push a node whose cost is the parent's cost plus
the distance to the parent, returning the new state and the new index. -/
noncomputable def add_node (t : RRTStar) (point : Point) (parent_index : ℕ) :
    RRTStar × ℕ :=
  let cost := (nthNode t parent_index).cost +
    point.distance (nthNode t parent_index).point
  ({ t with nodes := t.nodes ++ [⟨point, some parent_index, cost⟩] },
    t.nodes.length)

/-- `RRTStar::near`: all indices other than `new_node_index` whose point
lies strictly within `search_radius` of the given node's point. -/
noncomputable def near (t : RRTStar) (new_node_index : ℕ) : List ℕ :=
  (List.range t.nodes.length).filter fun j =>
    decide (j ≠ new_node_index ∧
      (nthNode t j).point.distance (nthNode t new_node_index).point <
        t.search_radius)

/-- Loop body of `RRTStar::rewire`: `newNode` is the clone of the node at
`new_node_index` taken before the loop; if routing neighbor `j` through
the new node is strictly cheaper, reparent it with the new cost. -/
noncomputable def rewireStep (newNode : Node) (new_node_index : ℕ)
    (s : RRTStar) (j : ℕ) : RRTStar :=
  let nb := nthNode s j
  let newCost := newNode.cost + newNode.point.distance nb.point
  if newCost < nb.cost then
    { s with nodes := s.nodes.set j ⟨nb.point, some new_node_index, newCost⟩ }
  else s

/-- `RRTStar::rewire`: fold the loop body over the neighbors of the new
node. -/
noncomputable def rewire (t : RRTStar) (new_node_index : ℕ) : RRTStar :=
  (near t new_node_index).foldl
    (rewireStep (nthNode t new_node_index) new_node_index) t

/-- `RRTStar::update_best_path`: if the newest node is within the goal
threshold and improves on the best cost, record it and report `true`. -/
noncomputable def update_best_path (t : RRTStar) : RRTStar × Bool :=
  let last := nthNode t (t.nodes.length - 1)
  let distance_to_goal := last.point.distance t.goal
  if distance_to_goal < t.goal_threshold ∧ (last.cost : EReal) < t.best_cost then
    ({ t with best_cost := (last.cost : EReal) }, true)
  else (t, false)

/-- Fuel-bounded walk up the parent chain collecting points, newest
first; `none` models non-termination of the source's `while` loop. -/
noncomputable def traceAux (t : RRTStar) : ℕ → ℕ → Option (List Point)
  | 0, _ => none
  | fuel + 1, i =>
    match (nthNode t i).parent with
    | none => some [(nthNode t i).point]
    | some p => (traceAux t fuel p).map (fun l => (nthNode t i).point :: l)

/-- `RRTStar::trace_path`: walk from the newest node to the root and
return the collected points in root-to-node order. -/
noncomputable def trace_path (t : RRTStar) : Option (List Point) :=
  (traceAux t t.nodes.length (t.nodes.length - 1)).map List.reverse

/-- One iteration of the main loop for a given sampled point: find the
nearest node, steer, and on a collision-free point add the node, rewire
and update the best path. -/
noncomputable def stepIteration (t : RRTStar) (sample : Point) : RRTStar × Bool :=
  let nearest := find_nearest t sample
  let new_point := steer t (nthNode t nearest).point sample
  if is_collision_free t new_point then
    let r := add_node t new_point nearest
    update_best_path (rewire r.1 r.2)
  else (t, false)

/-- Run the loop body over a list of sampled points. -/
noncomputable def runSteps (t : RRTStar) (samples : List Point) : RRTStar :=
  samples.foldl (fun s p => (stepIteration s p).1) t

/-- States reachable from construction by `add_node` (with an in-range
parent) and `rewire` (with an in-range index). -/
inductive Reachable : RRTStar → Prop
  | init (start goal : Point) (step_size goal_threshold search_radius : ℝ) :
      Reachable (RRTStar.new start goal step_size goal_threshold search_radius)
  | add (t : RRTStar) (p : Point) (pi : ℕ) (ht : Reachable t)
      (hpi : pi < t.nodes.length) : Reachable (add_node t p pi).1
  | rew (t : RRTStar) (n : ℕ) (ht : Reachable t)
      (hn : n < t.nodes.length) : Reachable (rewire t n)

/-- One parent-link step: node `i` exists and its parent is `j`. -/
def pstep (t : RRTStar) (i j : ℕ) : Prop :=
  i < t.nodes.length ∧ (nthNode t i).parent = some j

/-- The parent-link structure has no cycle. -/
def Acyclic (t : RRTStar) : Prop :=
  ∀ i, ¬ Relation.TransGen (pstep t) i i

/-- Every non-root node's cost dominates its parent's cost plus the edge
length (equality can be lost only downward, by a rewire above). -/
def costSlack (t : RRTStar) : Prop :=
  ∀ i p, i < t.nodes.length → (nthNode t i).parent = some p →
    (nthNode t p).cost + (nthNode t p).point.distance (nthNode t i).point ≤
      (nthNode t i).cost

/-- The structural invariant maintained by every tree operation. -/
structure Inv (t : RRTStar) : Prop where
  nonempty : t.nodes ≠ []
  root_parent : (nthNode t 0).parent = none
  root_cost : (nthNode t 0).cost = 0
  parents_lt : ∀ i, 0 < i → i < t.nodes.length →
    ∃ p, (nthNode t i).parent = some p ∧ p < t.nodes.length
  cost_nonneg : ∀ i, i < t.nodes.length → 0 ≤ (nthNode t i).cost
  slack : costSlack t
  acyclic : Acyclic t

/-! ### Indexing lemmas -/

theorem nthNode_append_lt (t : RRTStar) (x : Node) (i : ℕ)
    (h : i < t.nodes.length) :
    nthNode { t with nodes := t.nodes ++ [x] } i = nthNode t i := by
  unfold nthNode
  exact List.getD_append _ _ _ _ h

theorem nthNode_append_self (t : RRTStar) (x : Node) :
    nthNode { t with nodes := t.nodes ++ [x] } t.nodes.length = x := by
  unfold nthNode
  rw [List.getD_append_right _ _ _ _ le_rfl]
  simp

theorem nthNode_set_self (t : RRTStar) (x : Node) (i : ℕ)
    (h : i < t.nodes.length) :
    nthNode { t with nodes := t.nodes.set i x } i = x := by
  unfold nthNode
  rw [List.getD_eq_getElem _ _ (by simpa using h)]
  simp [List.getElem_set_self]

theorem nthNode_set_ne (t : RRTStar) (x : Node) (i j : ℕ) (h : i ≠ j) :
    nthNode { t with nodes := t.nodes.set i x } j = nthNode t j := by
  unfold nthNode
  rw [List.getD_eq_getElem?_getD, List.getElem?_set_ne h,
    ← List.getD_eq_getElem?_getD]

/-- Membership in `near` is exactly: a distinct in-range index strictly
within the search radius. -/
theorem mem_near (t : RRTStar) (n j : ℕ) :
    j ∈ near t n ↔ j < t.nodes.length ∧ j ≠ n ∧
      (nthNode t j).point.distance (nthNode t n).point < t.search_radius := by
  unfold near
  simp [List.mem_filter, List.mem_range, and_assoc]

theorem near_nodup (t : RRTStar) (n : ℕ) : (near t n).Nodup :=
  (List.nodup_range _).filter _

/-! ### Generic acyclicity lemmas for parent-link surgery -/

theorem acyclic_of_no_edges (r : ℕ → ℕ → Prop) (h : ∀ a b, ¬ r a b) :
    ∀ i, ¬ Relation.TransGen r i i := by
  intro i hi
  cases hi with
  | single h1 => exact h _ _ h1
  | tail _ h1 => exact h _ _ h1

/-- Adding edges out of a fresh source `l` (no edge points to `l`)
preserves acyclicity. -/
theorem acyclic_extend (r r' : ℕ → ℕ → Prop) (l p : ℕ)
    (h : ∀ a b, r' a b ↔ (a = l ∧ b = p) ∨ r a b)
    (hin : ∀ a b, r a b → b ≠ l) (hp : p ≠ l)
    (hacyc : ∀ i, ¬ Relation.TransGen r i i) :
    ∀ i, ¬ Relation.TransGen r' i i := by
  have htgt : ∀ a b, r' a b → b ≠ l := by
    intro a b hab
    rcases (h a b).mp hab with ⟨_, rfl⟩ | hr
    · exact hp
    · exact hin _ _ hr
  have hstrip : ∀ x y, x ≠ l → Relation.TransGen r' x y →
      Relation.TransGen r x y := by
    intro x y hx hxy
    induction hxy using Relation.TransGen.head_induction_on with
    | base hab =>
      rcases (h _ _).mp hab with ⟨rfl, _⟩ | hr
      · exact absurd rfl hx
      · exact Relation.TransGen.single hr
    | ih hac htg ih =>
      rcases (h _ _).mp hac with ⟨rfl, _⟩ | hr
      · exact absurd rfl hx
      · exact Relation.TransGen.head hr (ih (htgt _ _ hac))
  have hend : ∀ x y, Relation.TransGen r' x y → y ≠ l := by
    intro x y hxy
    induction hxy with
    | single h1 => exact htgt _ _ h1
    | tail _ h1 _ => exact htgt _ _ h1
  intro i hi
  exact hacyc i (hstrip i i (hend i i hi) hi)

/-- Redirecting all edges out of `j` to the single target `n` preserves
acyclicity, provided `j` is not reachable from `n` in the old relation. -/
theorem acyclic_repar (r r' : ℕ → ℕ → Prop) (j n : ℕ)
    (h : ∀ a b, r' a b ↔ (a = j ∧ b = n) ∨ (a ≠ j ∧ r a b))
    (hnj : ¬ Relation.ReflTransGen r n j)
    (hacyc : ∀ i, ¬ Relation.TransGen r i i) :
    ∀ i, ¬ Relation.TransGen r' i i := by
  have hA : ∀ x y, Relation.TransGen r' x y →
      Relation.TransGen r x y ∨
        (Relation.ReflTransGen r x j ∧
          (Relation.ReflTransGen r n y ∨ Relation.ReflTransGen r n j)) := by
    intro x y hxy
    induction hxy using Relation.TransGen.head_induction_on with
    | base hab =>
      rcases (h _ _).mp hab with ⟨rfl, rfl⟩ | ⟨_, hr⟩
      · exact Or.inr ⟨Relation.ReflTransGen.refl,
          Or.inl Relation.ReflTransGen.refl⟩
      · exact Or.inl (Relation.TransGen.single hr)
    | ih hac _ ih =>
      rcases (h _ _).mp hac with ⟨rfl, rfl⟩ | ⟨_, hr⟩
      · refine Or.inr ⟨Relation.ReflTransGen.refl, ?_⟩
        rcases ih with htg | ⟨_, hD⟩
        · exact Or.inl htg.to_reflTransGen
        · exact hD
      · rcases ih with htg | ⟨hcj, hD⟩
        · exact Or.inl (Relation.TransGen.head hr htg)
        · exact Or.inr ⟨Relation.ReflTransGen.head hr hcj, hD⟩
  intro i hi
  rcases hA i i hi with htg | ⟨hij, hD⟩
  · exact hacyc i htg
  · rcases hD with hl | hr
    · exact hnj (hl.trans hij)
    · exact hnj hr

/-- Along `costSlack` trees, costs weakly decrease toward ancestors. -/
theorem cost_antitone (t : RRTStar) (hs : costSlack t) :
    ∀ a b, Relation.TransGen (pstep t) a b →
      (nthNode t b).cost ≤ (nthNode t a).cost := by
  have hone : ∀ a b, pstep t a b → (nthNode t b).cost ≤ (nthNode t a).cost := by
    intro a b h1
    have h2 := hs a b h1.1 h1.2
    have hd := Point.distance_nonneg (nthNode t b).point (nthNode t a).point
    linarith
  intro a b hab
  induction hab with
  | single h1 => exact hone _ _ h1
  | tail _ h1 ih => exact le_trans (hone _ _ h1) ih

/-- A duplicate-free list of naturals below `n` has length at most `n`. -/
theorem length_le_of_nodup_lt (l : List ℕ) (n : ℕ) (hnd : l.Nodup)
    (hlt : ∀ x ∈ l, x < n) : l.length ≤ n := by
  rw [← List.toFinset_card_of_nodup hnd]
  have hsub : l.toFinset ⊆ Finset.range n := by
    intro x hx
    exact Finset.mem_range.mpr (hlt x (List.mem_toFinset.mp hx))
  simpa using Finset.card_le_card hsub

/-! ### Pointwise characterisation of `rewire` -/

theorem rewireStep_fields (nn : Node) (n : ℕ) (s : RRTStar) (j : ℕ) :
    (rewireStep nn n s j).nodes.length = s.nodes.length ∧
    (rewireStep nn n s j).goal = s.goal ∧
    (rewireStep nn n s j).step_size = s.step_size ∧
    (rewireStep nn n s j).goal_threshold = s.goal_threshold ∧
    (rewireStep nn n s j).search_radius = s.search_radius ∧
    (rewireStep nn n s j).best_cost = s.best_cost := by
  simp only [rewireStep]
  split <;> simp

theorem rewireStep_nthNode_ne (nn : Node) (n : ℕ) (s : RRTStar) (j k : ℕ)
    (h : k ≠ j) : nthNode (rewireStep nn n s j) k = nthNode s k := by
  simp only [rewireStep]
  split
  · exact nthNode_set_ne s _ j k (Ne.symm h)
  · rfl

theorem rewireStep_nthNode_self (nn : Node) (n : ℕ) (s : RRTStar) (j : ℕ)
    (hj : j < s.nodes.length) :
    nthNode (rewireStep nn n s j) j =
      (if nn.cost + nn.point.distance (nthNode s j).point < (nthNode s j).cost
       then ⟨(nthNode s j).point, some n,
         nn.cost + nn.point.distance (nthNode s j).point⟩
       else nthNode s j) := by
  simp only [rewireStep]
  split
  · exact nthNode_set_self s _ j hj
  · rfl

/-- What the `rewire` loop does to the tree, for any duplicate-free list
of in-range indices distinct from the rewired-around index. -/
theorem foldl_rewireStep_spec (nn : Node) (n : ℕ) :
    ∀ (l : List ℕ) (s : RRTStar), l.Nodup →
      (∀ j ∈ l, j ≠ n ∧ j < s.nodes.length) →
      (l.foldl (rewireStep nn n) s).nodes.length = s.nodes.length ∧
      (l.foldl (rewireStep nn n) s).goal = s.goal ∧
      (l.foldl (rewireStep nn n) s).step_size = s.step_size ∧
      (l.foldl (rewireStep nn n) s).goal_threshold = s.goal_threshold ∧
      (l.foldl (rewireStep nn n) s).search_radius = s.search_radius ∧
      (l.foldl (rewireStep nn n) s).best_cost = s.best_cost ∧
      (∀ k, k ∉ l → nthNode (l.foldl (rewireStep nn n) s) k = nthNode s k) ∧
      (∀ k ∈ l, nthNode (l.foldl (rewireStep nn n) s) k =
        (if nn.cost + nn.point.distance (nthNode s k).point <
            (nthNode s k).cost
         then ⟨(nthNode s k).point, some n,
           nn.cost + nn.point.distance (nthNode s k).point⟩
         else nthNode s k)) := by
  intro l
  induction l with
  | nil => intro s _ _; simp
  | cons j rest ih =>
    intro s hnd hmem
    have hj := hmem j (List.mem_cons_self j rest)
    have hjrest : j ∉ rest := (List.nodup_cons.mp hnd).1
    have hstep := rewireStep_fields nn n s j
    have hIH := ih (rewireStep nn n s j) (List.nodup_cons.mp hnd).2
      (fun k hk => ⟨(hmem k (List.mem_cons_of_mem j hk)).1,
        by rw [hstep.1]; exact (hmem k (List.mem_cons_of_mem j hk)).2⟩)
    obtain ⟨hl, hg, hss, hgt, hsr, hbc, hout, hin⟩ := hIH
    simp only [List.foldl_cons]
    refine ⟨by rw [hl, hstep.1], by rw [hg, hstep.2.1],
      by rw [hss, hstep.2.2.1], by rw [hgt, hstep.2.2.2.1],
      by rw [hsr, hstep.2.2.2.2.1], by rw [hbc, hstep.2.2.2.2.2], ?_, ?_⟩
    · intro k hk
      have hk1 : k ≠ j := fun h => hk (h ▸ List.mem_cons_self j rest)
      have hk2 : k ∉ rest := fun h => hk (List.mem_cons_of_mem j h)
      rw [hout k hk2, rewireStep_nthNode_ne nn n s j k hk1]
    · intro k hk
      rcases List.mem_cons.mp hk with rfl | hk2
      · rw [hout k hjrest, rewireStep_nthNode_self nn n s k hj.2]
      · have hkj : k ≠ j := fun h => hjrest (h ▸ hk2)
        rw [hin k hk2, rewireStep_nthNode_ne nn n s j k hkj]

/-- Full pointwise specification of `rewire`: the precise reassignment
condition, and the frame (length, configuration, best cost, all points,
and every node outside the strict-radius neighborhood unchanged). -/
theorem rewire_spec (t : RRTStar) (n : ℕ) :
    (rewire t n).nodes.length = t.nodes.length ∧
    (rewire t n).goal = t.goal ∧
    (rewire t n).step_size = t.step_size ∧
    (rewire t n).goal_threshold = t.goal_threshold ∧
    (rewire t n).search_radius = t.search_radius ∧
    (rewire t n).best_cost = t.best_cost ∧
    (∀ k, k ∉ near t n → nthNode (rewire t n) k = nthNode t k) ∧
    (∀ k ∈ near t n, nthNode (rewire t n) k =
      (if (nthNode t n).cost +
          (nthNode t n).point.distance (nthNode t k).point <
          (nthNode t k).cost
       then ⟨(nthNode t k).point, some n, (nthNode t n).cost +
         (nthNode t n).point.distance (nthNode t k).point⟩
       else nthNode t k)) := by
  have := foldl_rewireStep_spec (nthNode t n) n (near t n) t (near_nodup t n)
    (fun j hj => by
      have h := (mem_near t n j).mp hj
      exact ⟨h.2.1, h.1⟩)
  exact this

/-! ### Preservation of the structural invariant -/

theorem inv_new (start goal : Point) (a b c : ℝ) :
    Inv (RRTStar.new start goal a b c) := by
  constructor
  · simp [RRTStar.new]
  · simp [RRTStar.new, nthNode]
  · simp [RRTStar.new, nthNode]
  · intro i h1 h2
    simp [RRTStar.new] at h2
    omega
  · intro i h2
    simp [RRTStar.new] at h2
    subst h2
    simp [RRTStar.new, nthNode]
  · intro i p h1 h2
    simp [RRTStar.new] at h1
    subst h1
    simp [RRTStar.new, nthNode] at h2
  · apply acyclic_of_no_edges
    intro a' b' hab
    have h1 : a' = 0 := by
      have := hab.1
      simp [RRTStar.new] at this
      omega
    subst h1
    have h2 := hab.2
    simp [RRTStar.new, nthNode] at h2

theorem nodes_length_pos (t : RRTStar) (h : Inv t) : 0 < t.nodes.length :=
  List.length_pos.mpr h.nonempty

theorem inv_add (t : RRTStar) (p : Point) (pi : ℕ) (ht : Inv t)
    (hpi : pi < t.nodes.length) : Inv (add_node t p pi).1 := by
  set c := (nthNode t pi).cost + p.distance (nthNode t pi).point with hc
  have hval : (add_node t p pi).1 =
      { t with nodes := t.nodes ++ [⟨p, some pi, c⟩] } := rfl
  have hlen : (add_node t p pi).1.nodes.length = t.nodes.length + 1 := by
    rw [hval]; simp
  have hlt : ∀ i, i < t.nodes.length →
      nthNode (add_node t p pi).1 i = nthNode t i := by
    intro i hi
    rw [hval]
    exact nthNode_append_lt t _ i hi
  have hnew : nthNode (add_node t p pi).1 t.nodes.length = ⟨p, some pi, c⟩ := by
    rw [hval]
    exact nthNode_append_self t _
  have hpos := nodes_length_pos t ht
  constructor
  · rw [hval]; simp
  · rw [hlt 0 hpos]; exact ht.root_parent
  · rw [hlt 0 hpos]; exact ht.root_cost
  · intro i h1 h2
    rw [hlen] at h2
    rcases Nat.lt_or_ge i t.nodes.length with hi | hi
    · obtain ⟨q, hq1, hq2⟩ := ht.parents_lt i h1 hi
      exact ⟨q, by rw [hlt i hi]; exact hq1, by omega⟩
    · have : i = t.nodes.length := by omega
      subst this
      exact ⟨pi, by rw [hnew], by omega⟩
  · intro i h2
    rw [hlen] at h2
    rcases Nat.lt_or_ge i t.nodes.length with hi | hi
    · rw [hlt i hi]; exact ht.cost_nonneg i hi
    · have : i = t.nodes.length := by omega
      subst this
      rw [hnew]
      have := ht.cost_nonneg pi hpi
      have := Point.distance_nonneg p (nthNode t pi).point
      simp only [hc]
      linarith
  · intro i q h1 h2
    rw [hlen] at h1
    rcases Nat.lt_or_ge i t.nodes.length with hi | hi
    · rw [hlt i hi] at h2 ⊢
      have hq : q < t.nodes.length := by
        rcases Nat.eq_zero_or_pos i with rfl | hipos
        · rw [ht.root_parent] at h2; cases h2
        · obtain ⟨q', hq1, hq2⟩ := ht.parents_lt i hipos hi
          rw [h2] at hq1
          cases hq1
          exact hq2
      rw [hlt q hq]
      exact ht.slack i q hi h2
    · have : i = t.nodes.length := by omega
      subst this
      rw [hnew] at h2 ⊢
      cases h2
      rw [hlt pi hpi]
      simp only [hc]
      rw [Point.distance_comm]
  · apply acyclic_extend (pstep t) _ t.nodes.length pi _ _ _ ht.acyclic
    · intro a' b'
      constructor
      · rintro ⟨ha, hb⟩
        rw [hlen] at ha
        rcases Nat.lt_or_ge a' t.nodes.length with hi | hi
        · right
          rw [hlt a' hi] at hb
          exact ⟨hi, hb⟩
        · left
          have : a' = t.nodes.length := by omega
          subst this
          rw [hnew] at hb
          cases hb
          exact ⟨rfl, rfl⟩
      · rintro (⟨rfl, rfl⟩ | ⟨ha, hb⟩)
        · exact ⟨by omega, by rw [hnew]⟩
        · exact ⟨by rw [hlen]; omega, by rw [hlt a' ha]; exact hb⟩
    · intro a' b' hab
      have ha1 := hab.1
      have ha2 := hab.2
      rcases Nat.eq_zero_or_pos a' with rfl | hpos'
      · rw [ht.root_parent] at ha2; cases ha2
      · obtain ⟨q', hq1, hq2⟩ := ht.parents_lt a' hpos' ha1
        rw [ha2] at hq1
        cases hq1
        omega
    · omega

theorem inv_rewireStep (s : RRTStar) (n j : ℕ) (hs : Inv s)
    (hn : n < s.nodes.length) (hj : j ≠ n) (hjlen : j < s.nodes.length) :
    Inv (rewireStep (nthNode s n) n s j) := by
  by_cases hc : (nthNode s n).cost +
      (nthNode s n).point.distance (nthNode s j).point < (nthNode s j).cost
  case neg =>
    have : rewireStep (nthNode s n) n s j = s := by
      simp only [rewireStep]
      rw [if_neg hc]
    rw [this]
    exact hs
  case pos =>
  have hj0 : j ≠ 0 := by
    intro h0
    subst h0
    rw [hs.root_cost] at hc
    have h1 := hs.cost_nonneg n hn
    have h2 := Point.distance_nonneg (nthNode s n).point (nthNode s 0).point
    linarith
  have hfields := rewireStep_fields (nthNode s n) n s j
  have hself := rewireStep_nthNode_self (nthNode s n) n s j hjlen
  rw [if_pos hc] at hself
  have hne := rewireStep_nthNode_ne (nthNode s n) n s j
  constructor
  · have := nodes_length_pos s hs
    rw [← List.length_pos, hfields.1]
    exact this
  · rw [hne 0 (Ne.symm hj0)]; exact hs.root_parent
  · rw [hne 0 (Ne.symm hj0)]; exact hs.root_cost
  · intro i h1 h2
    rw [hfields.1] at h2
    rcases eq_or_ne i j with rfl | hij
    · exact ⟨n, by rw [hself], by rw [hfields.1]; exact hn⟩
    · obtain ⟨q, hq1, hq2⟩ := hs.parents_lt i h1 h2
      exact ⟨q, by rw [hne i hij]; exact hq1, by rw [hfields.1]; exact hq2⟩
  · intro i h2
    rw [hfields.1] at h2
    rcases eq_or_ne i j with rfl | hij
    · rw [hself]
      have := hs.cost_nonneg n hn
      have := Point.distance_nonneg (nthNode s n).point (nthNode s i).point
      simp only
      linarith
    · rw [hne i hij]; exact hs.cost_nonneg i h2
  · intro i q h1 h2
    rw [hfields.1] at h1
    rcases eq_or_ne i j with rfl | hij
    · rw [hself] at h2 ⊢
      simp only at h2 ⊢
      cases h2
      rw [hne n (Ne.symm hj)]
    · rw [hne i hij] at h2 ⊢
      rcases eq_or_ne q j with rfl | hqj
      · rw [hself]
        have hold := hs.slack i q h1 h2
        simp only
        have hcle : (nthNode s n).cost +
            (nthNode s n).point.distance (nthNode s q).point ≤
            (nthNode s q).cost := le_of_lt hc
        have hd := Point.distance_nonneg (nthNode s q).point (nthNode s i).point
        linarith
      · rw [hne q hqj]
        exact hs.slack i q h1 h2
  · apply acyclic_repar (pstep s) _ j n _ _ hs.acyclic
    · intro a' b'
      constructor
      · rintro ⟨ha, hb⟩
        rw [hfields.1] at ha
        rcases eq_or_ne a' j with rfl | haj
        · rw [hself] at hb
          cases hb
          exact Or.inl ⟨rfl, rfl⟩
        · rw [hne a' haj] at hb
          exact Or.inr ⟨haj, ha, hb⟩
      · rintro (⟨rfl, rfl⟩ | ⟨haj, ha, hb⟩)
        · exact ⟨by rw [hfields.1]; exact hjlen, by rw [hself]⟩
        · exact ⟨by rw [hfields.1]; exact ha, by rw [hne a' haj]; exact hb⟩
    · intro hreach
      rcases Relation.reflTransGen_iff_eq_or_transGen.mp hreach with heq | htg
      · exact hj heq
      · have := cost_antitone s hs.slack n j htg
        have hd := Point.distance_nonneg (nthNode s n).point (nthNode s j).point
        linarith

theorem inv_foldRewire (t0 : RRTStar) (n : ℕ) :
    ∀ (l : List ℕ) (s : RRTStar), (∀ j ∈ l, j ≠ n ∧ j < s.nodes.length) →
      Inv s → n < s.nodes.length → nthNode s n = nthNode t0 n →
      Inv (l.foldl (rewireStep (nthNode t0 n) n) s) := by
  intro l
  induction l with
  | nil => intro s _ hs _ _; simpa using hs
  | cons j rest ih =>
    intro s hmem hs hn hsame
    have hj := hmem j (List.mem_cons_self j rest)
    have hstep : rewireStep (nthNode t0 n) n s j =
        rewireStep (nthNode s n) n s j := by rw [hsame]
    have hfields := rewireStep_fields (nthNode s n) n s j
    have hs1 : Inv (rewireStep (nthNode t0 n) n s j) := by
      rw [hstep]
      exact inv_rewireStep s n j hs hn hj.1 hj.2
    simp only [List.foldl_cons]
    apply ih
    · intro k hk
      refine ⟨(hmem k (List.mem_cons_of_mem j hk)).1, ?_⟩
      rw [hstep, hfields.1]
      exact (hmem k (List.mem_cons_of_mem j hk)).2
    · exact hs1
    · rw [hstep, hfields.1]
      exact hn
    · rw [hstep, rewireStep_nthNode_ne _ _ _ _ _ (Ne.symm hj.1)]
      exact hsame

theorem inv_rewire (t : RRTStar) (n : ℕ) (ht : Inv t)
    (hn : n < t.nodes.length) : Inv (rewire t n) := by
  apply inv_foldRewire t n (near t n) t _ ht hn rfl
  intro j hj
  have h := (mem_near t n j).mp hj
  exact ⟨h.2.1, h.1⟩

/-- Every reachable planner state satisfies the structural invariant. -/
theorem reachable_inv (t : RRTStar) (h : Reachable t) : Inv t := by
  induction h with
  | init s g a b c => exact inv_new s g a b c
  | add t p pi _ hpi ih => exact inv_add t p pi ih hpi
  | rew t n _ hn ih => exact inv_rewire t n ih hn

/-- A small concrete planner used to instantiate theorems with
hypotheses: the construction state for start `(0,0)`, goal `(1,1)` and
unit parameters. -/
noncomputable def demoInit : RRTStar := RRTStar.new ⟨0, 0⟩ ⟨1, 1⟩ 1 1 1

theorem demoInit_length : demoInit.nodes.length = 1 := by
  simp [demoInit, RRTStar.new]

theorem rewire_best_cost (t : RRTStar) (n : ℕ) :
    (rewire t n).best_cost = t.best_cost :=
  (rewire_spec t n).2.2.2.2.2.1

/-! ### Claim theorems -/

/-- C2: in every tree state reachable from construction by `add_node`
and `rewire`, the parent structure is acyclic, the root at index 0 is
the only node without a parent, and no `rewire` call ever reassigns the
root's parent. -/
theorem tree_structure_invariant (t : RRTStar) (h : Reachable t) :
    Acyclic t ∧ (nthNode t 0).parent = none ∧
    (∀ i, 0 < i → i < t.nodes.length → (nthNode t i).parent ≠ none) ∧
    (∀ n, n < t.nodes.length → (nthNode (rewire t n) 0).parent = none) := by
  have hI := reachable_inv t h
  refine ⟨hI.acyclic, hI.root_parent, ?_, ?_⟩
  · intro i h1 h2 hc
    obtain ⟨p, hp, _⟩ := hI.parents_lt i h1 h2
    rw [hp] at hc
    cases hc
  · intro n hn
    exact (inv_rewire t n hI hn).root_parent

/-- Witness for C2 at the construction state. -/
theorem tree_structure_invariant_witness :
    Acyclic demoInit ∧ (nthNode demoInit 0).parent = none ∧
    (∀ i, 0 < i → i < demoInit.nodes.length →
      (nthNode demoInit i).parent ≠ none) ∧
    (∀ n, n < demoInit.nodes.length →
      (nthNode (rewire demoInit n) 0).parent = none) :=
  tree_structure_invariant demoInit (Reachable.init ⟨0, 0⟩ ⟨1, 1⟩ 1 1 1)

/-- C3 (amended): construction performs no validation at all; for any
parameters, including non-positive ones, it returns a complete planner
holding the given configuration and the single root node. -/
theorem new_no_validation (start goal : Point) (ss th sr : ℝ) :
    (RRTStar.new start goal ss th sr).nodes = [⟨start, none, 0⟩] ∧
    (RRTStar.new start goal ss th sr).step_size = ss ∧
    (RRTStar.new start goal ss th sr).goal_threshold = th ∧
    (RRTStar.new start goal ss th sr).search_radius = sr ∧
    (RRTStar.new start goal ss th sr).goal = goal ∧
    (RRTStar.new start goal ss th sr).best_cost = ⊤ :=
  ⟨rfl, rfl, rfl, rfl, rfl, rfl⟩

/-- Counterexample to C3 as stated: with `step_size`, `goal_threshold`
and `search_radius` all `-1` (non-positive), construction still returns
a planner containing the root node — it does not fail. -/
theorem new_accepts_nonpositive_config :
    (RRTStar.new ⟨0, 0⟩ ⟨1, 1⟩ (-1) (-1) (-1)).step_size ≤ 0 ∧
    (RRTStar.new ⟨0, 0⟩ ⟨1, 1⟩ (-1) (-1) (-1)).goal_threshold ≤ 0 ∧
    (RRTStar.new ⟨0, 0⟩ ⟨1, 1⟩ (-1) (-1) (-1)).search_radius ≤ 0 ∧
    (RRTStar.new ⟨0, 0⟩ ⟨1, 1⟩ (-1) (-1) (-1)).nodes =
      [⟨⟨0, 0⟩, none, 0⟩] := by
  refine ⟨?_, ?_, ?_, rfl⟩ <;> norm_num [RRTStar.new]

/-- C4: `rewire` reassigns a neighbor's parent to the new node and sets
its cost to `new_node.cost + distance(new_node.point, neighbor.point)`
exactly when that hypothetical cost strictly beats the neighbor's
current cost; every other node (including every descendant of a rewired
neighbor) is left untouched. -/
theorem rewire_reassignment_iff (t : RRTStar) (n j : ℕ)
    (hn : n < t.nodes.length) (hj : j < t.nodes.length) :
    ((j ∈ near t n ∧ (nthNode t n).cost +
        (nthNode t n).point.distance (nthNode t j).point <
        (nthNode t j).cost) →
      nthNode (rewire t n) j = ⟨(nthNode t j).point, some n,
        (nthNode t n).cost +
          (nthNode t n).point.distance (nthNode t j).point⟩) ∧
    (¬(j ∈ near t n ∧ (nthNode t n).cost +
        (nthNode t n).point.distance (nthNode t j).point <
        (nthNode t j).cost) →
      nthNode (rewire t n) j = nthNode t j) := by
  obtain ⟨-, -, -, -, -, -, hout, hin⟩ := rewire_spec t n
  constructor
  · rintro ⟨hmem, hlt⟩
    rw [hin j hmem, if_pos hlt]
  · intro hnot
    by_cases hmem : j ∈ near t n
    · have hnlt : ¬((nthNode t n).cost +
          (nthNode t n).point.distance (nthNode t j).point <
          (nthNode t j).cost) := fun hlt => hnot ⟨hmem, hlt⟩
      rw [hin j hmem, if_neg hnlt]
    · exact hout j hmem

/-- Witness for C4 at the construction state. -/
theorem rewire_reassignment_iff_witness :
    0 < demoInit.nodes.length ∧
    (((0 : ℕ) ∈ near demoInit 0 ∧ (nthNode demoInit 0).cost +
        (nthNode demoInit 0).point.distance (nthNode demoInit 0).point <
        (nthNode demoInit 0).cost) →
      nthNode (rewire demoInit 0) 0 = ⟨(nthNode demoInit 0).point, some 0,
        (nthNode demoInit 0).cost +
          (nthNode demoInit 0).point.distance (nthNode demoInit 0).point⟩) ∧
    (¬((0 : ℕ) ∈ near demoInit 0 ∧ (nthNode demoInit 0).cost +
        (nthNode demoInit 0).point.distance (nthNode demoInit 0).point <
        (nthNode demoInit 0).cost) →
      nthNode (rewire demoInit 0) 0 = nthNode demoInit 0) := by
  have h1 : 0 < demoInit.nodes.length := by rw [demoInit_length]; omega
  exact ⟨h1, rewire_reassignment_iff demoInit 0 0 h1 h1⟩

/-- C5: `near t i` contains exactly the in-range indices other than `i`
whose point lies strictly within the search radius of node `i`'s point,
and with radius `0` it is empty even in the presence of duplicate
points, because the comparison is strict. -/
theorem near_characterization (t : RRTStar) (i : ℕ)
    (hi : i < t.nodes.length) :
    (∀ j, j ∈ near t i ↔ j < t.nodes.length ∧ j ≠ i ∧
      (nthNode t j).point.distance (nthNode t i).point < t.search_radius) ∧
    (t.search_radius = 0 → near t i = []) := by
  refine ⟨fun j => mem_near t i j, fun hr => ?_⟩
  unfold near
  apply List.filter_eq_nil_iff.mpr
  intro j _
  simp only [decide_eq_true_eq, not_and]
  intro _
  rw [hr]
  exact not_lt.mpr (Point.distance_nonneg _ _)

/-- Witness for C5 at the construction state. -/
theorem near_characterization_witness :
    0 < demoInit.nodes.length ∧
    (∀ j, j ∈ near demoInit 0 ↔ j < demoInit.nodes.length ∧ j ≠ 0 ∧
      (nthNode demoInit j).point.distance (nthNode demoInit 0).point <
        demoInit.search_radius) ∧
    (demoInit.search_radius = 0 → near demoInit 0 = []) := by
  have h1 : 0 < demoInit.nodes.length := by rw [demoInit_length]; omega
  exact ⟨h1, near_characterization demoInit 0 h1⟩

/-- C9: `best_cost` never increases across any sequence of `step`
iterations; an `update_best_path` call that reports an improvement
strictly decreases it, and one that does not leaves it unchanged. -/
theorem best_cost_monotone (t : RRTStar) (samples : List Point) :
    (runSteps t samples).best_cost ≤ t.best_cost ∧
    (∀ s : RRTStar, (update_best_path s).2 = true →
      (update_best_path s).1.best_cost < s.best_cost) ∧
    (∀ s : RRTStar, (update_best_path s).2 = false →
      (update_best_path s).1.best_cost = s.best_cost) := by
  have hupd : ∀ s : RRTStar, (update_best_path s).1.best_cost ≤ s.best_cost ∧
      ((update_best_path s).2 = true →
        (update_best_path s).1.best_cost < s.best_cost) ∧
      ((update_best_path s).2 = false →
        (update_best_path s).1.best_cost = s.best_cost) := by
    intro s
    simp only [update_best_path]
    split
    case isTrue hcond =>
      refine ⟨le_of_lt hcond.2, fun _ => hcond.2, fun hf => ?_⟩
      simp at hf
    case isFalse hcond =>
      refine ⟨le_rfl, fun ht' => ?_, fun _ => rfl⟩
      simp at ht'
  have hstep : ∀ (s : RRTStar) (p : Point),
      (stepIteration s p).1.best_cost ≤ s.best_cost := by
    intro s p
    have hgen : ∀ (q : Point) (m : ℕ),
        (update_best_path (rewire (add_node s q m).1
          (add_node s q m).2)).1.best_cost ≤ s.best_cost := by
      intro q m
      have h1 := (hupd (rewire (add_node s q m).1 (add_node s q m).2)).1
      have h2 := rewire_best_cost (add_node s q m).1 (add_node s q m).2
      have h3 : (add_node s q m).1.best_cost = s.best_cost := rfl
      rw [h2, h3] at h1
      exact h1
    simp only [stepIteration, is_collision_free, if_true]
    exact hgen _ _
  refine ⟨?_, fun s => (hupd s).2.1, fun s => (hupd s).2.2⟩
  · induction samples generalizing t with
    | nil => simp [runSteps]
    | cons p rest ih =>
      calc (runSteps t (p :: rest)).best_cost
          = (runSteps (stepIteration t p).1 rest).best_cost := rfl
        _ ≤ (stepIteration t p).1.best_cost := ih _
        _ ≤ t.best_cost := hstep t p

/-- C10: `rewire` preserves the node count, every point, the entire node
at every index at or beyond the search radius from the new node, and the
new node itself; any node it changes is a distinct strictly-within-radius
neighbor. -/
theorem rewire_frame (t : RRTStar) (n : ℕ) (hn : n < t.nodes.length) :
    (rewire t n).nodes.length = t.nodes.length ∧
    (∀ j, (nthNode (rewire t n) j).point = (nthNode t j).point) ∧
    (∀ j, j < t.nodes.length →
      t.search_radius ≤ (nthNode t j).point.distance (nthNode t n).point →
      nthNode (rewire t n) j = nthNode t j) ∧
    nthNode (rewire t n) n = nthNode t n ∧
    (∀ j, nthNode (rewire t n) j ≠ nthNode t j →
      j ≠ n ∧
        (nthNode t j).point.distance (nthNode t n).point < t.search_radius) := by
  obtain ⟨hlen, -, -, -, -, -, hout, hin⟩ := rewire_spec t n
  refine ⟨hlen, ?_, ?_, ?_, ?_⟩
  · intro j
    by_cases hmem : j ∈ near t n
    · rw [hin j hmem]
      split <;> rfl
    · rw [hout j hmem]
  · intro j _ hfar
    apply hout
    intro hmem
    exact absurd ((mem_near t n j).mp hmem).2.2 (not_lt.mpr hfar)
  · apply hout
    intro hmem
    exact ((mem_near t n n).mp hmem).2.1 rfl
  · intro j hch
    by_cases hmem : j ∈ near t n
    · exact ⟨((mem_near t n j).mp hmem).2.1, ((mem_near t n j).mp hmem).2.2⟩
    · exact absurd (hout j hmem) hch

/-- Witness for C10 at the construction state. -/
theorem rewire_frame_witness :
    0 < demoInit.nodes.length ∧
    ((rewire demoInit 0).nodes.length = demoInit.nodes.length ∧
    (∀ j, (nthNode (rewire demoInit 0) j).point = (nthNode demoInit j).point) ∧
    (∀ j, j < demoInit.nodes.length →
      demoInit.search_radius ≤
        (nthNode demoInit j).point.distance (nthNode demoInit 0).point →
      nthNode (rewire demoInit 0) j = nthNode demoInit j) ∧
    nthNode (rewire demoInit 0) 0 = nthNode demoInit 0 ∧
    (∀ j, nthNode (rewire demoInit 0) j ≠ nthNode demoInit j →
      j ≠ 0 ∧ (nthNode demoInit j).point.distance (nthNode demoInit 0).point <
        demoInit.search_radius)) := by
  have h1 : 0 < demoInit.nodes.length := by rw [demoInit_length]; omega
  exact ⟨h1, rewire_frame demoInit 0 h1⟩

/-! ### Trace-path termination and endpoints -/

theorem traceAux_complete (t : RRTStar)
    (hpar : ∀ k, k < t.nodes.length → ∀ p, (nthNode t k).parent = some p →
      p < t.nodes.length)
    (hacyc : Acyclic t) :
    ∀ (fuel : ℕ) (i : ℕ) (vis : List ℕ), i < t.nodes.length →
      vis.Nodup → (∀ v ∈ vis, v < t.nodes.length) → i ∉ vis →
      (∀ v ∈ vis, Relation.TransGen (pstep t) v i) →
      t.nodes.length ≤ fuel + vis.length →
      ∃ l j, traceAux t fuel i = some l ∧
        l.head? = some ((nthNode t i).point) ∧
        l.getLast? = some ((nthNode t j).point) ∧
        j < t.nodes.length ∧ (nthNode t j).parent = none := by
  intro fuel
  induction fuel with
  | zero =>
    intro i vis hi hnd hlt hnotin _ hfuel
    have hall : ∀ x ∈ i :: vis, x < t.nodes.length := by
      intro v hv
      rcases List.mem_cons.mp hv with rfl | h2
      · exact hi
      · exact hlt v h2
    have hcard := length_le_of_nodup_lt (i :: vis) t.nodes.length
      (List.nodup_cons.mpr ⟨hnotin, hnd⟩) hall
    rw [List.length_cons] at hcard
    exfalso
    omega
  | succ f ih =>
    intro i vis hi hnd hlt hnotin htrans hfuel
    cases hp : (nthNode t i).parent with
    | none =>
      exact ⟨[(nthNode t i).point], i, by simp [traceAux, hp], rfl, rfl, hi, hp⟩
    | some p =>
      have hplen := hpar i hi p hp
      have hstep : pstep t i p := ⟨hi, hp⟩
      have hpnotin : p ∉ i :: vis := by
        intro hmem
        rcases List.mem_cons.mp hmem with rfl | hmem2
        · exact hacyc p (Relation.TransGen.single hstep)
        · exact hacyc p ((htrans p hmem2).tail hstep)
      obtain ⟨l, j, h1, h2, h3, h4, h5⟩ := ih p (i :: vis) hplen
        (List.nodup_cons.mpr ⟨hnotin, hnd⟩)
        (by
          intro v hv
          rcases List.mem_cons.mp hv with rfl | h2
          · exact hi
          · exact hlt v h2)
        hpnotin
        (by
          intro v hv
          rcases List.mem_cons.mp hv with rfl | h2
          · exact Relation.TransGen.single hstep
          · exact (htrans v h2).tail hstep)
        (by rw [List.length_cons]; omega)
      refine ⟨(nthNode t i).point :: l, j, by simp [traceAux, hp, h1], rfl,
        ?_, h4, h5⟩
      cases l with
      | nil => rw [List.head?] at h2; cases h2
      | cons b l2 => rw [List.getLast?_cons_cons]; exact h3

/-- C7: on a non-empty tree with in-range parents, an acyclic parent
structure and the root at index 0 as the only parentless node,
`trace_path` terminates and returns a path of length at least 1 that
starts at the root's point and ends at the newest node's point. -/
theorem trace_path_spec (t : RRTStar) (h0 : t.nodes ≠ [])
    (hpar : ∀ k, k < t.nodes.length → ∀ p, (nthNode t k).parent = some p →
      p < t.nodes.length)
    (hacyc : Acyclic t)
    (hroot : ∀ k, k < t.nodes.length → (nthNode t k).parent = none → k = 0) :
    ∃ path, trace_path t = some path ∧ 1 ≤ path.length ∧
      path.head? = some ((nthNode t 0).point) ∧
      path.getLast? = some ((nthNode t (t.nodes.length - 1)).point) := by
  have hlen : 0 < t.nodes.length := List.length_pos.mpr h0
  obtain ⟨l, j, h1, h2, h3, h4, h5⟩ := traceAux_complete t hpar hacyc
    t.nodes.length (t.nodes.length - 1) [] (by omega) List.nodup_nil
    (by simp) (by simp) (by simp) (by simp)
  have hj0 : j = 0 := hroot j h4 h5
  subst hj0
  have hne : l ≠ [] := by
    intro hnil
    rw [hnil, List.head?] at h2
    cases h2
  refine ⟨l.reverse, ?_, ?_, ?_, ?_⟩
  · rw [trace_path, h1]
    rfl
  · rw [List.length_reverse]
    have := List.length_pos.mpr hne
    omega
  · rw [List.head?_reverse]
    exact h3
  · rw [List.getLast?_reverse]
    exact h2

theorem demoInit_node0 : nthNode demoInit 0 = ⟨⟨0, 0⟩, none, 0⟩ := rfl

/-- Witness for C7 at the construction state. -/
theorem trace_path_spec_witness :
    demoInit.nodes ≠ [] ∧ Acyclic demoInit ∧
    (∃ path, trace_path demoInit = some path ∧ 1 ≤ path.length ∧
      path.head? = some ((nthNode demoInit 0).point) ∧
      path.getLast? =
        some ((nthNode demoInit (demoInit.nodes.length - 1)).point)) := by
  have h0 : demoInit.nodes ≠ [] := by simp [demoInit, RRTStar.new]
  have hpar : ∀ k, k < demoInit.nodes.length →
      ∀ p, (nthNode demoInit k).parent = some p →
        p < demoInit.nodes.length := by
    intro k hk p hp
    rw [demoInit_length] at hk
    have : k = 0 := by omega
    subst this
    rw [demoInit_node0] at hp
    cases hp
  have hacyc : Acyclic demoInit := by
    apply acyclic_of_no_edges
    intro a b hab
    have h1 := hab.1
    rw [demoInit_length] at h1
    have : a = 0 := by omega
    subst this
    have h2 := hab.2
    rw [demoInit_node0] at h2
    cases h2
  have hroot : ∀ k, k < demoInit.nodes.length →
      (nthNode demoInit k).parent = none → k = 0 := by
    intro k hk _
    rw [demoInit_length] at hk
    omega
  exact ⟨h0, hacyc, trace_path_spec demoInit h0 hpar hacyc hroot⟩

/-! ### Steering geometry -/

/-- C8: with a nonnegative step size, `steer` lands exactly `step_size`
away from the start point; for coincident inputs the bearing is 0
radians (displacement along the positive x axis), and otherwise the
displacement points from `p` toward `q`, scaled to length `step_size`. -/
theorem steer_spec (t : RRTStar) (p q : Point) (h : 0 ≤ t.step_size) :
    (steer t p q).distance p = t.step_size ∧
    (p = q → steer t p q = ⟨p.x + t.step_size, p.y⟩) ∧
    (p ≠ q →
      (steer t p q).x - p.x = (t.step_size / q.distance p) * (q.x - p.x) ∧
      (steer t p q).y - p.y = (t.step_size / q.distance p) * (q.y - p.y)) := by
  refine ⟨?_, ?_, ?_⟩
  · simp only [steer, Point.distance]
    have h1 : (p.x + t.step_size * Real.cos (Complex.arg ⟨q.x - p.x, q.y - p.y⟩)
          - p.x) ^ 2 +
        (p.y + t.step_size * Real.sin (Complex.arg ⟨q.x - p.x, q.y - p.y⟩)
          - p.y) ^ 2 =
        t.step_size ^ 2 *
          (Real.sin (Complex.arg ⟨q.x - p.x, q.y - p.y⟩) ^ 2 +
            Real.cos (Complex.arg ⟨q.x - p.x, q.y - p.y⟩) ^ 2) := by
      ring
    rw [h1, Real.sin_sq_add_cos_sq, mul_one, Real.sqrt_sq h]
  · intro hpq
    subst hpq
    have hz : (⟨p.x - p.x, p.y - p.y⟩ : ℂ) = 0 :=
      Complex.ext (by simp) (by simp)
    simp only [steer, hz, Complex.arg_zero, Real.cos_zero, Real.sin_zero]
    exact Point.ext (by ring) (by ring)
  · intro hpq
    have hz : (⟨q.x - p.x, q.y - p.y⟩ : ℂ) ≠ 0 := by
      intro h0
      apply hpq
      have h1 := congrArg Complex.re h0
      have h2 := congrArg Complex.im h0
      simp only [Complex.zero_re, Complex.zero_im] at h1 h2
      exact Point.ext (by linarith) (by linarith)
    have habs : Complex.abs ⟨q.x - p.x, q.y - p.y⟩ = q.distance p := by
      rw [Complex.abs_apply, Complex.normSq_mk]
      unfold Point.distance
      congr 1
      ring
    constructor
    · simp only [steer]
      rw [Complex.cos_arg hz, habs]
      simp only
      ring
    · simp only [steer]
      rw [Complex.sin_arg, habs]
      simp only
      ring

/-- Witness for C8: steer from the origin toward `(3,4)` with the unit
step size of the construction state. -/
theorem steer_spec_witness :
    0 ≤ demoInit.step_size ∧
    ((steer demoInit ⟨0, 0⟩ ⟨3, 4⟩).distance ⟨0, 0⟩ = demoInit.step_size ∧
    ((⟨0, 0⟩ : Point) = ⟨3, 4⟩ →
      steer demoInit ⟨0, 0⟩ ⟨3, 4⟩ =
        ⟨(⟨0, 0⟩ : Point).x + demoInit.step_size, (⟨0, 0⟩ : Point).y⟩) ∧
    ((⟨0, 0⟩ : Point) ≠ ⟨3, 4⟩ →
      (steer demoInit ⟨0, 0⟩ ⟨3, 4⟩).x - (⟨0, 0⟩ : Point).x =
        (demoInit.step_size / Point.distance ⟨3, 4⟩ ⟨0, 0⟩) *
          ((⟨3, 4⟩ : Point).x - (⟨0, 0⟩ : Point).x) ∧
      (steer demoInit ⟨0, 0⟩ ⟨3, 4⟩).y - (⟨0, 0⟩ : Point).y =
        (demoInit.step_size / Point.distance ⟨3, 4⟩ ⟨0, 0⟩) *
          ((⟨3, 4⟩ : Point).y - (⟨0, 0⟩ : Point).y))) :=
  ⟨by norm_num [demoInit, RRTStar.new],
    steer_spec demoInit ⟨0, 0⟩ ⟨3, 4⟩ (by norm_num [demoInit, RRTStar.new])⟩

/-! ### The documented one-step scenario -/

/-- The documented concrete configuration: start `(0,0)`, goal `(100,0)`,
step size 10, goal threshold 10, search radius 15. -/
noncomputable def demo0 : RRTStar := RRTStar.new ⟨0, 0⟩ ⟨100, 0⟩ 10 10 15

/-- The state after adding the steered node `(10,0)` under the root. -/
noncomputable def demo1 : RRTStar := (add_node demo0 ⟨10, 0⟩ 0).1

theorem demo_dist_10_0 : Point.distance ⟨10, 0⟩ ⟨0, 0⟩ = 10 :=
  Point.distance_eval 10 0 0 0 10 (by norm_num) (by norm_num)

theorem demo_dist_0_10 : Point.distance ⟨0, 0⟩ ⟨10, 0⟩ = 10 :=
  Point.distance_eval 0 0 10 0 10 (by norm_num) (by norm_num)

theorem demo_dist_10_100 : Point.distance ⟨10, 0⟩ ⟨100, 0⟩ = 90 :=
  Point.distance_eval 10 0 100 0 90 (by norm_num) (by norm_num)

theorem demo0_node0 : nthNode demo0 0 = ⟨⟨0, 0⟩, none, 0⟩ := rfl

theorem demo1_node0 : nthNode demo1 0 = ⟨⟨0, 0⟩, none, 0⟩ := rfl

theorem demo1_node1 : nthNode demo1 1 = ⟨⟨10, 0⟩, some 0, 10⟩ := by
  have h : (0 : ℝ) + Point.distance ⟨10, 0⟩ ⟨0, 0⟩ = 10 := by
    rw [demo_dist_10_0]
    ring
  calc nthNode demo1 1
      = ⟨⟨10, 0⟩, some 0, (0 : ℝ) + Point.distance ⟨10, 0⟩ ⟨0, 0⟩⟩ := rfl
    _ = ⟨⟨10, 0⟩, some 0, 10⟩ := by rw [h]

theorem demo_find_nearest : find_nearest demo0 ⟨100, 0⟩ = 0 := by
  have h1 : find_nearest demo0 ⟨100, 0⟩ =
      (if (nthNode demo0 0).point.distance ⟨100, 0⟩ <
          (nthNode demo0 0).point.distance ⟨100, 0⟩ then 0 else 0) := rfl
  rw [h1, if_neg (lt_irrefl _)]

theorem demo_steer : steer demo0 ⟨0, 0⟩ ⟨100, 0⟩ = ⟨10, 0⟩ := by
  have hz : (⟨(100 : ℝ) - 0, (0 : ℝ) - 0⟩ : ℂ) = ((100 : ℝ) : ℂ) :=
    Complex.ext (by norm_num [Complex.ofReal_re]) (by norm_num [Complex.ofReal_im])
  have h1 : steer demo0 ⟨0, 0⟩ ⟨100, 0⟩ =
      ⟨0 + 10 * Real.cos (Complex.arg ⟨(100 : ℝ) - 0, (0 : ℝ) - 0⟩),
        0 + 10 * Real.sin (Complex.arg ⟨(100 : ℝ) - 0, (0 : ℝ) - 0⟩)⟩ := rfl
  rw [h1, hz, Complex.arg_ofReal_of_nonneg (by norm_num), Real.cos_zero,
    Real.sin_zero]
  exact Point.ext (by norm_num) (by norm_num)

theorem demo_near : near demo1 1 = [0] := by
  have e1 : near demo1 1 = (List.range 2).filter (fun j =>
      decide (j ≠ 1 ∧ (nthNode demo1 j).point.distance
        (nthNode demo1 1).point < demo1.search_radius)) := rfl
  have hrange : List.range 2 = [0, 1] := rfl
  have hc0 : decide ((0 : ℕ) ≠ 1 ∧ (nthNode demo1 0).point.distance
      (nthNode demo1 1).point < demo1.search_radius) = true := by
    apply decide_eq_true
    refine ⟨by norm_num, ?_⟩
    rw [demo1_node0, demo1_node1]
    have hr : demo1.search_radius = 15 := rfl
    rw [hr]
    simp only
    rw [demo_dist_0_10]
    norm_num
  have hc1 : decide ((1 : ℕ) ≠ 1 ∧ (nthNode demo1 1).point.distance
      (nthNode demo1 1).point < demo1.search_radius) = true ↔ False := by
    simp
  rw [e1, hrange]
  simp only [List.filter_cons, List.filter_nil]
  rw [hc0]
  simp only [if_true]
  split
  case isTrue hh =>
    rw [decide_eq_true_eq] at hh
    exact absurd rfl hh.1
  case isFalse => rfl

theorem demo_rewire : rewire demo1 1 = demo1 := by
  have e2 : rewire demo1 1 =
      (near demo1 1).foldl (rewireStep (nthNode demo1 1) 1) demo1 := rfl
  rw [e2, demo_near]
  simp only [List.foldl_cons, List.foldl_nil, rewireStep]
  rw [demo1_node0, demo1_node1]
  simp only
  rw [demo_dist_10_0, if_neg (by norm_num)]

theorem demo_update : update_best_path demo1 = (demo1, false) := by
  have e3 : update_best_path demo1 =
      (if (nthNode demo1 1).point.distance demo1.goal < demo1.goal_threshold ∧
          ((nthNode demo1 1).cost : EReal) < demo1.best_cost then
        ({ demo1 with best_cost := ((nthNode demo1 1).cost : EReal) }, true)
      else (demo1, false)) := rfl
  rw [e3, if_neg]
  rintro ⟨hlt, -⟩
  rw [demo1_node1] at hlt
  have hg : demo1.goal = ⟨100, 0⟩ := rfl
  have hth : demo1.goal_threshold = 10 := rfl
  rw [hg, hth] at hlt
  simp only at hlt
  rw [demo_dist_10_100] at hlt
  norm_num at hlt

theorem demo_step : stepIteration demo0 ⟨100, 0⟩ = (demo1, false) := by
  simp only [stepIteration]
  rw [demo_find_nearest, demo0_node0]
  simp only
  rw [demo_steer]
  simp only [is_collision_free, if_true]
  show update_best_path (rewire demo1 1) = (demo1, false)
  rw [demo_rewire, demo_update]

/-- C6: in the documented configuration (start `(0,0)`, goal `(100,0)`,
step 10, threshold 10, radius 15) with the always-true collision check
and the sample `(100,0)`, one step finds the root as nearest node,
steers to `(10,0)`, adds that node with cost 10, and reports no path
improvement since the new node is 90 away from the goal, above the
threshold of 10. -/
theorem one_step_behavior :
    find_nearest demo0 ⟨100, 0⟩ = 0 ∧
    steer demo0 ⟨0, 0⟩ ⟨100, 0⟩ = ⟨10, 0⟩ ∧
    (stepIteration demo0 ⟨100, 0⟩).1.nodes.length = 2 ∧
    nthNode (stepIteration demo0 ⟨100, 0⟩).1 1 = ⟨⟨10, 0⟩, some 0, 10⟩ ∧
    (nthNode (stepIteration demo0 ⟨100, 0⟩).1 1).point.distance demo0.goal
      = 90 ∧
    demo0.goal_threshold = 10 ∧
    (stepIteration demo0 ⟨100, 0⟩).2 = false ∧
    (stepIteration demo0 ⟨100, 0⟩).1.best_cost = ⊤ := by
  refine ⟨demo_find_nearest, demo_steer, ?_, ?_, ?_, rfl, ?_, ?_⟩
  · rw [demo_step]
    rfl
  · rw [demo_step]
    exact demo1_node1
  · rw [demo_step]
    show (nthNode demo1 1).point.distance demo0.goal = 90
    rw [demo1_node1]
    simp only
    exact demo_dist_10_100
  · rw [demo_step]
  · rw [demo_step]
    rfl

/-! ### Stale descendant costs after a rewire -/

/-- A node equality that only adjusts the cost expression. -/
theorem node_cost_congr (pt : Point) (pa : Option ℕ) (c c' : ℝ)
    (h : c = c') : (⟨pt, pa, c⟩ : Node) = ⟨pt, pa, c'⟩ := by rw [h]

noncomputable def cex0 : RRTStar := RRTStar.new ⟨0, 0⟩ ⟨0, 0⟩ 1 1 6

noncomputable def cex1 : RRTStar := (add_node cex0 ⟨0, 3⟩ 0).1

noncomputable def cex2 : RRTStar := (add_node cex1 ⟨4, 0⟩ 1).1

noncomputable def cex3 : RRTStar := (add_node cex2 ⟨4, 7⟩ 2).1

noncomputable def cex4 : RRTStar := (add_node cex3 ⟨4, 0⟩ 0).1

noncomputable def cexT : RRTStar := rewire cex4 4

theorem cex_dist_A : Point.distance ⟨0, 3⟩ ⟨0, 0⟩ = 3 :=
  Point.distance_eval 0 3 0 0 3 (by norm_num) (by norm_num)

theorem cex_dist_B : Point.distance ⟨4, 0⟩ ⟨0, 3⟩ = 5 :=
  Point.distance_eval 4 0 0 3 5 (by norm_num) (by norm_num)

theorem cex_dist_C : Point.distance ⟨4, 7⟩ ⟨4, 0⟩ = 7 :=
  Point.distance_eval 4 7 4 0 7 (by norm_num) (by norm_num)

theorem cex_dist_D : Point.distance ⟨4, 0⟩ ⟨0, 0⟩ = 4 :=
  Point.distance_eval 4 0 0 0 4 (by norm_num) (by norm_num)

theorem cex_dist_G : Point.distance ⟨4, 0⟩ ⟨4, 0⟩ = 0 :=
  Point.distance_eval 4 0 4 0 0 (by norm_num) (by norm_num)

theorem cex4_node0 : nthNode cex4 0 = ⟨⟨0, 0⟩, none, 0⟩ := rfl

theorem cex4_node2 : nthNode cex4 2 = ⟨⟨4, 0⟩, some 1, 8⟩ := by
  calc nthNode cex4 2
      = ⟨⟨4, 0⟩, some 1, (0 + Point.distance ⟨0, 3⟩ ⟨0, 0⟩) +
          Point.distance ⟨4, 0⟩ ⟨0, 3⟩⟩ := rfl
    _ = ⟨⟨4, 0⟩, some 1, 8⟩ := by
        apply node_cost_congr
        rw [cex_dist_A, cex_dist_B]
        norm_num

theorem cex4_node3 : nthNode cex4 3 = ⟨⟨4, 7⟩, some 2, 15⟩ := by
  calc nthNode cex4 3
      = ⟨⟨4, 7⟩, some 2, ((0 + Point.distance ⟨0, 3⟩ ⟨0, 0⟩) +
          Point.distance ⟨4, 0⟩ ⟨0, 3⟩) + Point.distance ⟨4, 7⟩ ⟨4, 0⟩⟩ := rfl
    _ = ⟨⟨4, 7⟩, some 2, 15⟩ := by
        apply node_cost_congr
        rw [cex_dist_A, cex_dist_B, cex_dist_C]
        norm_num

theorem cex4_node4 : nthNode cex4 4 = ⟨⟨4, 0⟩, some 0, 4⟩ := by
  calc nthNode cex4 4
      = ⟨⟨4, 0⟩, some 0, 0 + Point.distance ⟨4, 0⟩ ⟨0, 0⟩⟩ := rfl
    _ = ⟨⟨4, 0⟩, some 0, 4⟩ := by
        apply node_cost_congr
        rw [cex_dist_D]
        norm_num

theorem cex4_length : cex4.nodes.length = 5 := rfl

theorem cex4_radius : cex4.search_radius = 6 := rfl

theorem cexT_node3 : nthNode cexT 3 = ⟨⟨4, 7⟩, some 2, 15⟩ := by
  have hnot : (3 : ℕ) ∉ near cex4 4 := by
    intro hmem
    obtain ⟨-, -, hlt⟩ := (mem_near cex4 4 3).mp hmem
    rw [cex4_node3, cex4_node4, cex4_radius] at hlt
    simp only at hlt
    rw [cex_dist_C] at hlt
    norm_num at hlt
  have h := (rewire_spec cex4 4).2.2.2.2.2.2.1 3 hnot
  rw [show cexT = rewire cex4 4 from rfl, h, cex4_node3]

theorem cexT_node2 : nthNode cexT 2 = ⟨⟨4, 0⟩, some 4, 4⟩ := by
  have hmem : (2 : ℕ) ∈ near cex4 4 := by
    apply (mem_near cex4 4 2).mpr
    refine ⟨by rw [cex4_length]; omega, by omega, ?_⟩
    rw [cex4_node2, cex4_node4, cex4_radius]
    simp only
    rw [cex_dist_G]
    norm_num
  have h := (rewire_spec cex4 4).2.2.2.2.2.2.2 2 hmem
  rw [cex4_node2, cex4_node4] at h
  simp only at h
  rw [cex_dist_G] at h
  rw [if_pos (by norm_num)] at h
  rw [show cexT = rewire cex4 4 from rfl, h]
  apply node_cost_congr
  norm_num

theorem cexT_reachable : Reachable cexT := by
  have h0 : Reachable cex0 := Reachable.init ⟨0, 0⟩ ⟨0, 0⟩ 1 1 6
  have h1 : Reachable cex1 := Reachable.add cex0 ⟨0, 3⟩ 0 h0
    (by rw [show cex0.nodes.length = 1 from rfl]; omega)
  have h2 : Reachable cex2 := Reachable.add cex1 ⟨4, 0⟩ 1 h1
    (by rw [show cex1.nodes.length = 2 from rfl]; omega)
  have h3 : Reachable cex3 := Reachable.add cex2 ⟨4, 7⟩ 2 h2
    (by rw [show cex2.nodes.length = 3 from rfl]; omega)
  have h4 : Reachable cex4 := Reachable.add cex3 ⟨4, 0⟩ 0 h3
    (by rw [show cex3.nodes.length = 4 from rfl]; omega)
  exact Reachable.rew cex4 4 h4 (by rw [cex4_length]; omega)

/-- Counterexample to C1 as stated: `cexT` is reachable (four `add_node`
calls followed by one `rewire`), yet immediately after that `rewire`
node 3 — a child of the rewired neighbor 2 — violates the cost equation:
its cost is 15 while its parent's cost plus the edge length is 11. -/
theorem cost_equation_counterexample :
    Reachable cexT ∧
    (nthNode cexT 3).parent = some 2 ∧
    (nthNode cexT 3).cost ≠ (nthNode cexT 2).cost +
      Point.distance (nthNode cexT 3).point (nthNode cexT 2).point := by
  refine ⟨cexT_reachable, ?_, ?_⟩
  · rw [cexT_node3]
  · rw [cexT_node3, cexT_node2]
    simp only
    rw [cex_dist_C]
    norm_num

/-- C1 (amended): the cost equation holds locally for the nodes each
call touches — `add_node` creates its new node satisfying the equation
and leaves all existing nodes unchanged, and `rewire` re-establishes the
equation for every neighbor it reparents — but not globally for
descendants of a rewired neighbor. -/
theorem cost_equation_local (t : RRTStar) (p : Point) (pi : ℕ)
    (hpi : pi < t.nodes.length) (n j : ℕ) :
    ((nthNode (add_node t p pi).1 (add_node t p pi).2).cost =
        (nthNode (add_node t p pi).1 pi).cost +
          Point.distance
            (nthNode (add_node t p pi).1 (add_node t p pi).2).point
            (nthNode (add_node t p pi).1 pi).point ∧
      (∀ k, k < t.nodes.length → nthNode (add_node t p pi).1 k = nthNode t k))
    ∧
    (j ∈ near t n →
      (nthNode t n).cost + (nthNode t n).point.distance (nthNode t j).point <
        (nthNode t j).cost →
      (nthNode (rewire t n) j).parent = some n ∧
      (nthNode (rewire t n) j).cost =
        (nthNode (rewire t n) n).cost +
          Point.distance (nthNode (rewire t n) j).point
            (nthNode (rewire t n) n).point) := by
  constructor
  · have h2 : (add_node t p pi).2 = t.nodes.length := rfl
    have hval : (add_node t p pi).1 = { t with nodes := t.nodes ++
        [⟨p, some pi, (nthNode t pi).cost +
          p.distance (nthNode t pi).point⟩] } := rfl
    constructor
    · rw [h2, hval, nthNode_append_self, nthNode_append_lt t _ pi hpi]
    · intro k hk
      rw [hval]
      exact nthNode_append_lt t _ k hk
  · intro hmem hlt
    have hnotn : n ∉ near t n := by
      intro hmem'
      exact ((mem_near t n n).mp hmem').2.1 rfl
    have hn := (rewire_spec t n).2.2.2.2.2.2.1 n hnotn
    have hj := (rewire_spec t n).2.2.2.2.2.2.2 j hmem
    rw [if_pos hlt] at hj
    rw [hj, hn]
    refine ⟨rfl, ?_⟩
    show (nthNode t n).cost + (nthNode t n).point.distance (nthNode t j).point
      = (nthNode t n).cost +
        Point.distance (nthNode t j).point (nthNode t n).point
    rw [Point.distance_comm]

/-- Witness for the amended C1 at the construction state. -/
theorem cost_equation_local_witness :
    0 < demoInit.nodes.length ∧
    (((nthNode (add_node demoInit ⟨1, 0⟩ 0).1
          (add_node demoInit ⟨1, 0⟩ 0).2).cost =
        (nthNode (add_node demoInit ⟨1, 0⟩ 0).1 0).cost +
          Point.distance
            (nthNode (add_node demoInit ⟨1, 0⟩ 0).1
              (add_node demoInit ⟨1, 0⟩ 0).2).point
            (nthNode (add_node demoInit ⟨1, 0⟩ 0).1 0).point ∧
      (∀ k, k < demoInit.nodes.length →
        nthNode (add_node demoInit ⟨1, 0⟩ 0).1 k = nthNode demoInit k))
    ∧
    ((0 : ℕ) ∈ near demoInit 0 →
      (nthNode demoInit 0).cost +
          (nthNode demoInit 0).point.distance (nthNode demoInit 0).point <
        (nthNode demoInit 0).cost →
      (nthNode (rewire demoInit 0) 0).parent = some 0 ∧
      (nthNode (rewire demoInit 0) 0).cost =
        (nthNode (rewire demoInit 0) 0).cost +
          Point.distance (nthNode (rewire demoInit 0) 0).point
            (nthNode (rewire demoInit 0) 0).point)) := by
  have h1 : 0 < demoInit.nodes.length := by rw [demoInit_length]; omega
  exact ⟨h1, cost_equation_local demoInit ⟨1, 0⟩ 0 h1 0 0⟩

end RRT
